import Mathlib

/-!
Shallow embedding of the teeny-qoi QOI codec (src/src/lib.rs, src/src/encoder.rs,
src/src/decoder.rs, src/src/helpers.rs) and proofs about the claims of its
specification.

Machine integers are modelled as `Nat` (unsigned) and `Int` (signed), with
explicit `% 256` / `% 2^32` wherever the Rust code wraps.  Fallible code
returns `Option`; the two statements in `SliceReader::start` that index a
slice before any length check are modelled by a distinguished `panicked`
outcome, since Rust slicing panics there on short input.
-/

namespace TeenyQoi

/-- An RGBA pixel: four 8-bit channels, modelled as `Nat` (always < 256 for
values produced by the codec).  Mirrors `RgbaPixel` in src/src/lib.rs. -/
structure RgbaPixel where
  r : Nat
  g : Nat
  b : Nat
  a : Nat
deriving DecidableEq

/-- Interpretation of a byte as a Rust `i8` (two's complement reinterpretation),
used for the `as i8` casts in the encoder. -/
def asI8 (n : Nat) : Int :=
  if n % 256 < 128 then ((n % 256 : Nat) : Int) else ((n % 256 : Nat) : Int) - 256

/-- Rust `u8::wrapping_sub`. -/
def u8wsub (x y : Nat) : Nat :=
  (((x : Int) - (y : Int)) % 256).toNat

/-- Rust `i8::wrapping_sub` on already-signed values, as an operation on `Int`. -/
def i8wsub (x y : Int) : Int :=
  (x - y + 128) % 256 - 128

/-- Rust `as u8` cast from a signed value (two's complement truncation). -/
def i8asU8 (x : Int) : Nat :=
  (x % 256).toNat

/-- The pixel hash from `RgbaPixel::index_position` (src/src/lib.rs):
`(r*3 + g*5 + b*7 + a*11) % 64` with 8-bit wraparound at every step. -/
def RgbaPixel.index_position (p : RgbaPixel) : Nat :=
  ((((p.r * 3) % 256 + (p.g * 5) % 256) % 256 + (p.b * 7) % 256) % 256 + (p.a * 11) % 256) % 256 % 64

/-- The six QOI chunk variants (`Chunk` in src/src/lib.rs). -/
inductive Chunk where
  | rgb (r g b : Nat)
  | rgba (r g b a : Nat)
  | index (idx : Nat)
  | diff (dr dg db : Int)
  | luma (dg dr_dg db_dg : Int)
  | run (length : Nat)
deriving DecidableEq

/-- Mirrors `in_diff_range` in src/src/lib.rs. -/
def in_diff_range (dr dg db : Int) : Bool :=
  (dr > -3 && dr < 2) && (dg > -3 && dg < 2) && (db > -3 && db < 2)

/-- Mirrors `in_luma_range` in src/src/lib.rs (same parameter order as the source:
`dr_dg`, `dr_db`, `dg`). -/
def in_luma_range (dr_dg dr_db dg : Int) : Bool :=
  (dr_dg > -9 && dr_dg < 8) && (dg > -33 && dg < 32) && (dr_db > -9 && dr_db < 8)

/-- The QOI file header (`Header` in src/src/lib.rs): width and height are
big-endian `u32`, channels and colorspace single bytes. -/
structure Header where
  width : Nat
  height : Nat
  channels : Nat
  colorspace : Nat
deriving DecidableEq

/-- Mirrors `Header::rgb`. -/
def Header.rgb (width height : Nat) : Header :=
  ⟨width, height, 3, 0⟩

/-- Mirrors `Header::rgba`. -/
def Header.rgba (width height : Nat) : Header :=
  ⟨width, height, 4, 0⟩

/-- Big-endian serialization of a `u32`. -/
def u32BE (n : Nat) : List Nat :=
  [n / 16777216 % 256, n / 65536 % 256, n / 256 % 256, n % 256]

/-- The header's byte serialization (zerocopy `AsBytes` on the `repr(C)` struct:
two big-endian `u32`s followed by the two single bytes — 10 bytes in total). -/
def Header.asBytes (h : Header) : List Nat :=
  u32BE h.width ++ u32BE h.height ++ [h.channels % 256, h.colorspace % 256]

/-- The 4-byte magic `"qoif"` (`tags::QOI_MAGIC`). -/
def QOI_MAGIC : List Nat := [113, 111, 105, 102]

/-- The 8-byte stream terminator (`tags::BYTESTREAM_END`). -/
def BYTESTREAM_END : List Nat := [0, 0, 0, 0, 0, 0, 0, 1]

/-- Byte serialization of one chunk (the `impl_chunk_as_bytes!` macro in
src/src/lib.rs).  Shifts and additions wrap at 8 bits exactly as the `u8`
arithmetic of the source does. -/
def Chunk.toBytes : Chunk → List Nat
  | .rgb r g b => [254, r, g, b]
  | .rgba r g b a => [255, r, g, b, a]
  | .index idx => [Nat.lor 0 idx]
  | .diff dr dg db =>
      [Nat.lor 64 (Nat.lor ((i8asU8 (dr + 2)) <<< 4 % 256)
        (Nat.lor ((i8asU8 (dg + 2)) <<< 2 % 256) (i8asU8 (db + 2))))]
  | .luma dg dr_dg db_dg =>
      [Nat.lor 128 (i8asU8 (dg + 32)),
       Nat.lor ((i8asU8 (dr_dg + 8)) <<< 4 % 256) (i8asU8 (db_dg + 8))]
  | .run length => [Nat.lor 192 ((length + 255) % 256)]

/-- The encoder state (`Encoder` in src/src/encoder.rs).  `previously_seen` is
the 64-slot pixel cache, `index` and `length` are wrapping `u32` counters. -/
structure Encoder where
  previously_seen : List RgbaPixel
  previous : RgbaPixel
  run : Nat
  index : Nat
  length : Nat
  header : Header
deriving DecidableEq

/-- Read of a cache slot (Rust array indexing; the hash is always < 64 and the
cache always has 64 slots, so the default is never observable in the codec). -/
def cacheGet (c : List RgbaPixel) (i : Nat) : RgbaPixel :=
  c.getD i ⟨0, 0, 0, 0⟩

/-- Mirrors `Encoder::new`: cache filled with transparent black `{0,0,0,0}`,
previous pixel opaque black `{0,0,0,255}`, `length = width * height` as a
wrapping `u32` product. -/
def Encoder.new (header : Header) : Encoder :=
  { previously_seen := List.replicate 64 ⟨0, 0, 0, 0⟩
    previous := ⟨0, 0, 0, 255⟩
    run := 0
    index := 0
    length := header.width % 4294967296 * (header.height % 4294967296) % 4294967296
    header := header }

/-- Mirrors `Encoder::process_pixel`: emits zero, one, or two chunks and the
updated encoder state. -/
def Encoder.process_pixel (e : Encoder) (pixel : RgbaPixel) : List Chunk × Encoder :=
  let idx := (e.index + 1) % 4294967296
  if pixel = e.previous then
    let run := (e.run + 1) % 256
    if run = 62 ∨ idx = e.length then
      ([Chunk.run run], { e with run := 0, index := idx, previous := pixel })
    else
      ([], { e with run := run, index := idx, previous := pixel })
  else
    let flushed : List Chunk := if e.run > 0 then [Chunk.run e.run] else []
    let index_pos := pixel.index_position
    if cacheGet e.previously_seen index_pos = pixel then
      (flushed ++ [Chunk.index index_pos],
       { e with run := 0, index := idx, previous := pixel })
    else
      let seen := e.previously_seen.set index_pos pixel
      let data : Chunk :=
        if pixel.a = e.previous.a then
          let dr := asI8 (u8wsub pixel.r e.previous.r)
          let dg := asI8 (u8wsub pixel.g e.previous.g)
          let db := asI8 (u8wsub pixel.b e.previous.b)
          let dr_dg := i8wsub dr dg
          let db_dg := i8wsub db dg
          if in_diff_range dr dg db then Chunk.diff dr dg db
          else if in_luma_range dr_dg db_dg dg then Chunk.luma dg dr_dg db_dg
          else Chunk.rgb pixel.r pixel.g pixel.b
        else
          Chunk.rgba pixel.r pixel.g pixel.b pixel.a
      (flushed ++ [data],
       { e with previously_seen := seen, run := 0, index := idx, previous := pixel })

/-- Folds `process_pixel` over a pixel list, collecting all emitted chunks. -/
def encodeChunks (e : Encoder) : List RgbaPixel → List Chunk × Encoder
  | [] => ([], e)
  | p :: ps =>
      let step := e.process_pixel p
      let rest := encodeChunks step.2 ps
      (step.1 ++ rest.1, rest.2)

/-- Mirrors `Encoder::image_to_vec`: magic, header bytes, the serialized chunk
stream, and the terminator. -/
def Encoder.image_to_vec (e : Encoder) (image : List RgbaPixel) : List Nat :=
  QOI_MAGIC ++ e.header.asBytes ++ (encodeChunks e image).1.flatMap Chunk.toBytes
    ++ BYTESTREAM_END

/-- The byte cursor (`SliceReader` in src/src/decoder.rs): an immutable byte
buffer plus a forward-only cursor. -/
structure SliceReader where
  inner : List Nat
  cursor : Nat
deriving DecidableEq

/-- Outcome of `SliceReader::start`.  The source slices `inner[0..4]` and
`inner[4..14]` with no preceding length check; Rust slicing panics when the
buffer is too short, which the embedding records as `panicked`. -/
inductive StartResult where
  | panicked
  | invalid
  | ok (header : Header) (r : SliceReader)
deriving DecidableEq

/-- Parses the 10 header bytes found at offsets 4..14 of the buffer
(`Header::read_from` on a correctly sized slice never fails). -/
def parseHeaderBytes (bs : List Nat) : Header :=
  { width := bs.getD 0 0 * 16777216 + bs.getD 1 0 * 65536 + bs.getD 2 0 * 256 + bs.getD 3 0
    height := bs.getD 4 0 * 16777216 + bs.getD 5 0 * 65536 + bs.getD 6 0 * 256 + bs.getD 7 0
    channels := bs.getD 8 0
    colorspace := bs.getD 9 0 }

/-- Mirrors `SliceReader::start`.  `inner[0..4]` panics when fewer than 4 bytes
are present; after a successful magic comparison `inner[4..14]` panics when
fewer than 14 bytes are present; otherwise the cursor starts at 14. -/
def SliceReader.start (inner : List Nat) : StartResult :=
  if inner.length < 4 then .panicked
  else if inner.take 4 ≠ QOI_MAGIC then .invalid
  else if inner.length < 14 then .panicked
  else .ok (parseHeaderBytes ((inner.drop 4).take 10)) ⟨inner, 14⟩

/-- Mirrors `SliceReader::peek_n::<N>`: bounds check first, no cursor movement. -/
def SliceReader.peek_n (n : Nat) (r : SliceReader) : Option (List Nat) :=
  if r.cursor + n > r.inner.length then none
  else some ((r.inner.drop r.cursor).take n)

/-- Mirrors `SliceReader::read_u8`: the cursor advances by one before the bounds
check, so it advances even on failure. -/
def SliceReader.read_u8 (r : SliceReader) : Option Nat × SliceReader :=
  let r' : SliceReader := ⟨r.inner, r.cursor + 1⟩
  if r.cursor + 1 > r.inner.length then (none, r')
  else (some (r.inner.getD r.cursor 0), r')

/-- Mirrors `SliceReader::read_n::<N>`: the cursor advances by `n` before the
bounds check, so it advances even on failure. -/
def SliceReader.read_n (n : Nat) (r : SliceReader) : Option (List Nat) × SliceReader :=
  let r' : SliceReader := ⟨r.inner, r.cursor + n⟩
  if r.cursor + n > r.inner.length then (none, r')
  else (some ((r.inner.drop r.cursor).take n), r')

/-- Mirrors `Iterator::next` for `SliceReader` (chunk parsing, src/src/decoder.rs
lines 61-109).  Returns `none` both on clean terminator detection and on cursor
exhaustion, exactly as the source's `Option` does. -/
def readChunk (r : SliceReader) : Option Chunk × SliceReader :=
  match r.read_u8 with
  | (none, r1) => (none, r1)
  | (some tag, r1) =>
    if tag = 254 then
      match r1.read_n 3 with
      | (none, r2) => (none, r2)
      | (some bs, r2) => (some (Chunk.rgb (bs.getD 0 0) (bs.getD 1 0) (bs.getD 2 0)), r2)
    else if tag = 255 then
      match r1.read_n 4 with
      | (none, r2) => (none, r2)
      | (some bs, r2) =>
          (some (Chunk.rgba (bs.getD 0 0) (bs.getD 1 0) (bs.getD 2 0) (bs.getD 3 0)), r2)
    else if tag = 0 ∧ r1.peek_n 7 = some (BYTESTREAM_END.drop 1) then
      (none, r1)
    else
      if Nat.land tag 192 = 0 then (some (Chunk.index tag), r1)
      else if Nat.land tag 192 = 64 then
        (some (Chunk.diff ((Nat.land (tag >>> 4) 3 : Nat) - 2)
          ((Nat.land (tag >>> 2) 3 : Nat) - 2) ((Nat.land tag 3 : Nat) - 2)), r1)
      else if Nat.land tag 192 = 128 then
        match r1.read_u8 with
        | (none, r2) => (none, r2)
        | (some b2, r2) =>
            (some (Chunk.luma ((Nat.land tag 63 : Nat) - 32)
              ((Nat.land (b2 >>> 4) 15 : Nat) - 8) ((Nat.land b2 15 : Nat) - 8)), r2)
      else
        (some (Chunk.run (Nat.land tag 63 + 1)), r1)

/-- The decoding state shared by every chunk source (`ImageDecoder` without its
inner iterator): the 64-slot cache, the last-produced pixel, the run counter. -/
structure DecState where
  previously_seen : List RgbaPixel
  previous : RgbaPixel
  run : Nat
deriving DecidableEq

/-- Mirrors `ImageDecoder::new`: cache filled with opaque black `{0,0,0,255}`,
previous pixel opaque black, run counter zero. -/
def DecState.init : DecState :=
  { previously_seen := List.replicate 64 ⟨0, 0, 0, 255⟩
    previous := ⟨0, 0, 0, 255⟩
    run := 0 }

/-- Rust `as u8` truncation of an `i16` intermediate value. -/
def i16asU8 (x : Int) : Nat :=
  (x % 256).toNat

/-- Mirrors `Iterator::next` for `ImageDecoder` (src/src/decoder.rs lines
150-191), generic in the chunk source `pull` just as the source is generic in
`T : Iterator<Item = Chunk>`.  Note that the `Run` arm, like every other arm,
falls through to the common `previous`/cache update of the source. -/
def decoderNext {σ : Type} (pull : σ → Option Chunk × σ) (d : DecState) (it : σ) :
    Option RgbaPixel × DecState × σ :=
  if d.run > 0 then
    (some d.previous, { d with run := d.run - 1 }, it)
  else
    match pull it with
    | (none, it') => (none, d, it')
    | (some c, it') =>
      let stepped : RgbaPixel × Nat :=
        match c with
        | .rgb r g b => (⟨r, g, b, d.previous.a⟩, d.run)
        | .rgba r g b a => (⟨r, g, b, a⟩, d.run)
        | .index idx => (cacheGet d.previously_seen idx, d.run)
        | .luma dg dr_dg db_dg =>
            (⟨i16asU8 ((d.previous.r : Int) + (dr_dg + dg)),
              i16asU8 ((d.previous.g : Int) + dg),
              i16asU8 ((d.previous.b : Int) + (db_dg + dg)),
              d.previous.a⟩, d.run)
        | .diff dr dg db =>
            (⟨i16asU8 ((d.previous.r : Int) + dr),
              i16asU8 ((d.previous.g : Int) + dg),
              i16asU8 ((d.previous.b : Int) + db),
              d.previous.a⟩, d.run)
        | .run length => (d.previous, (length + 255) % 256)
      (some stepped.1,
       { previously_seen := d.previously_seen.set stepped.1.index_position stepped.1
         previous := stepped.1
         run := stepped.2 }, it')

/-- Pulls chunks from a plain list (the simplest `Iterator<Item = Chunk>`). -/
def listPull (cs : List Chunk) : Option Chunk × List Chunk :=
  (cs.head?, cs.tail)

/-- Runs the decoder until it yields no pixel, collecting at most `fuel`
pixels. -/
def decodeList {σ : Type} (pull : σ → Option Chunk × σ) :
    Nat → DecState → σ → List RgbaPixel
  | 0, _, _ => []
  | fuel + 1, d, it =>
    match decoderNext pull d it with
    | (none, _, _) => []
    | (some p, d', it') => p :: decodeList pull fuel d' it'

/-- Full decode of a byte buffer: `SliceReader::start`, then the pixel iterator
(`ImageDecoder` over the reader).  `none` when `start` does not succeed. -/
def decodeQoi (buf : List Nat) (fuel : Nat) : Option (List RgbaPixel) :=
  match SliceReader.start buf with
  | .ok _ r => some (decodeList readChunk fuel DecState.init r)
  | _ => none

/-- Whether `process_pixel` writes `pixel` into the cache: exactly when the
pixel differs from the previous one and is not an index hit. -/
def stepWrites (e : Encoder) (pixel : RgbaPixel) : Prop :=
  pixel ≠ e.previous ∧ cacheGet e.previously_seen pixel.index_position ≠ pixel

instance (e : Encoder) (pixel : RgbaPixel) : Decidable (stepWrites e pixel) := by
  unfold stepWrites
  infer_instance

/-- The encoder fold instrumented with the list of pixels written into the
cache so far (a ghost trace over `process_pixel`). -/
def encodeTrace (e : Encoder) (w : List RgbaPixel) :
    List RgbaPixel → List Chunk × Encoder × List RgbaPixel
  | [] => ([], e, w)
  | p :: ps =>
      let step := e.process_pixel p
      let w' := if stepWrites e p then w ++ [p] else w
      let rest := encodeTrace step.2 w' ps
      (step.1 ++ rest.1, rest.2)

/-- Every cache slot of the encoder either still holds the initial transparent
black fill or holds a pixel that was written during the session. -/
def EncCacheInv (e : Encoder) (w : List RgbaPixel) : Prop :=
  ∀ i : Nat, cacheGet e.previously_seen i = ⟨0, 0, 0, 0⟩ ∨ cacheGet e.previously_seen i ∈ w

/-- The decoder's cache slot addressed by the hash of the last-produced pixel
holds that pixel, and the cache has its 64 slots. -/
def DecInv (d : DecState) : Prop :=
  d.previously_seen.length = 64 ∧
    cacheGet d.previously_seen d.previous.index_position = d.previous

theorem index_position_lt (p : RgbaPixel) : p.index_position < 64 :=
  Nat.mod_lt _ (by norm_num)

theorem cacheGet_set_self (l : List RgbaPixel) (n : Nat) (x : RgbaPixel)
    (h : n < l.length) : cacheGet (l.set n x) n = x := by
  induction l generalizing n with
  | nil => simp at h
  | cons a l ih =>
    cases n with
    | zero => rfl
    | succ n =>
      simp only [List.set_cons_succ, cacheGet, List.getD_cons_succ]
      exact ih n (by simpa using h)

theorem cacheGet_set_ne (l : List RgbaPixel) (n i : Nat) (x : RgbaPixel)
    (h : i ≠ n) : cacheGet (l.set n x) i = cacheGet l i := by
  induction l generalizing n i with
  | nil => rfl
  | cons a l ih =>
    cases n with
    | zero =>
      cases i with
      | zero => exact absurd rfl h
      | succ i => rfl
    | succ n =>
      cases i with
      | zero => rfl
      | succ i =>
        simp only [List.set_cons_succ, cacheGet, List.getD_cons_succ]
        exact ih n i (fun hc => h (by rw [hc]))

theorem cacheGet_oob (l : List RgbaPixel) (i : Nat) (h : l.length ≤ i) :
    cacheGet l i = ⟨0, 0, 0, 0⟩ := by
  unfold cacheGet
  rw [List.getD_eq_default]
  exact h

theorem set_eq_self_of_cacheGet (l : List RgbaPixel) (n : Nat) (x : RgbaPixel)
    (h : cacheGet l n = x) : l.set n x = l := by
  induction l generalizing n with
  | nil => rfl
  | cons a l ih =>
    cases n with
    | zero =>
      have : a = x := h
      rw [← this]
      rfl
    | succ n =>
      simp only [List.set_cons_succ]
      rw [ih n h]

theorem drop_cons_getD (l : List Nat) (n x : Nat) (rest : List Nat)
    (h : l.drop n = x :: rest) : l.getD n 0 = x ∧ l.drop (n + 1) = rest := by
  induction l generalizing n with
  | nil => simp at h
  | cons a l ih =>
    cases n with
    | zero =>
      simp only [List.drop_zero] at h
      cases h
      exact ⟨rfl, by simp⟩
    | succ n =>
      simp only [List.drop_succ_cons] at h
      exact (ih n h)

/-- Claim C1: round-trip `decode (encode P) = P` fails on the code.  For the
1×1 image whose only pixel is transparent black `{0,0,0,0}`, the encoder's
cache (initially all `{0,0,0,0}`) spuriously index-hits at slot 0 and emits
`Index{0}`, while the decoder's cache slot 0 initially holds `{0,0,0,255}`,
so decoding returns opaque black instead of the encoded pixel. -/
theorem c1_roundtrip_failure :
    decodeQoi (Encoder.image_to_vec (Encoder.new (Header.rgba 1 1)) [⟨0, 0, 0, 0⟩]) 4
      = some [⟨0, 0, 0, 255⟩] ∧
    (⟨0, 0, 0, 255⟩ : RgbaPixel) ≠ ⟨0, 0, 0, 0⟩ := by
  constructor
  · decide
  · decide

/-- Claim C3: decoding is claimed never to panic on any input, but
`SliceReader::start` slices `inner[0..4]` and `inner[4..14]` before any length
check, so it panics on the empty buffer and on the 4-byte buffer holding just
the magic. -/
theorem c3_start_panics_on_short_input :
    SliceReader.start [] = StartResult.panicked ∧
    SliceReader.start [113, 111, 105, 102] = StartResult.panicked := by
  constructor
  · decide
  · decide

/-- Claim C4 (counterexample): the stream for a 1×1 image with one pixel is 23
bytes = 4 (magic) + 10 (header) + 1 (chunk) + 8 (terminator).  Under the
claimed layout — 4-byte magic, then a 14-byte header, then chunks, then the
8-byte terminator — every stream would have at least 4+14+8 = 26 bytes. -/
theorem c4_layout_counterexample :
    (Encoder.image_to_vec (Encoder.new (Header.rgba 1 1)) [⟨0, 0, 0, 0⟩]).length = 23 ∧
    23 < 4 + 14 + 8 := by
  constructor
  · decide
  · decide

/-- Claim C4 (amended): the layout is the 4-byte magic, a 10-byte header (so
the magic plus header form the 14-byte QOI file prefix), the chunk stream, and
the 8-byte terminator; the decoder starts chunk parsing at offset 14. -/
theorem c4_layout_amended :
    (∀ h : Header, (Header.asBytes h).length = 10) ∧
    QOI_MAGIC.length = 4 ∧ BYTESTREAM_END.length = 8 ∧
    (∀ (e : Encoder) (ps : List RgbaPixel),
      Encoder.image_to_vec e ps =
        QOI_MAGIC ++ e.header.asBytes ++ (encodeChunks e ps).1.flatMap Chunk.toBytes
          ++ BYTESTREAM_END) ∧
    (∀ (buf : List Nat) (hd : Header) (r : SliceReader),
      SliceReader.start buf = .ok hd r → r.cursor = 14) := by
  refine ⟨fun h => rfl, rfl, rfl, fun e ps => rfl, fun buf hd r h => ?_⟩
  unfold SliceReader.start at h
  split at h
  · exact absurd h (by simp)
  · split at h
    · exact absurd h (by simp)
    · split at h
      · exact absurd h (by simp)
      · cases h
        rfl

/-- Witness for the amended C4: a concrete valid prefix is accepted with the
cursor at offset 14. -/
theorem c4_layout_amended_witness :
    SliceReader.start [113, 111, 105, 102, 0, 0, 0, 0, 0, 0, 0, 0, 0, 0]
      = .ok ⟨0, 0, 0, 0⟩ ⟨[113, 111, 105, 102, 0, 0, 0, 0, 0, 0, 0, 0, 0, 0], 14⟩ ∧
    (⟨[113, 111, 105, 102, 0, 0, 0, 0, 0, 0, 0, 0, 0, 0], 14⟩ : SliceReader).cursor = 14 :=
  ⟨by decide,
   c4_layout_amended.2.2.2.2 [113, 111, 105, 102, 0, 0, 0, 0, 0, 0, 0, 0, 0, 0] ⟨0, 0, 0, 0⟩
     ⟨[113, 111, 105, 102, 0, 0, 0, 0, 0, 0, 0, 0, 0, 0], 14⟩ (by decide)⟩

/-- Claim C5 (counterexample): a buffer that is well-formed except for the
missing terminator decodes to exactly the same value as the terminated buffer
— the chunk iterator returns `None` in both cases, so cursor exhaustion is
silently treated as successful termination, not surfaced as a distinct
`EndOfInput` failure. -/
theorem c5_missing_terminator_counterexample :
    decodeQoi (QOI_MAGIC ++ (Header.rgba 1 1).asBytes ++ [127]) 3
      = decodeQoi (QOI_MAGIC ++ (Header.rgba 1 1).asBytes ++ [127] ++ BYTESTREAM_END) 3 ∧
    decodeQoi (QOI_MAGIC ++ (Header.rgba 1 1).asBytes ++ [127]) 3
      = some [⟨1, 1, 1, 255⟩] := by
  constructor
  · decide
  · decide

/-- Claim C5 (amended): when the cursor is exhausted at a chunk boundary the
chunk iterator yields `none` — the very value that also signals clean
termination — while still advancing the cursor. -/
theorem c5_exhaustion_silent (r : SliceReader) (h : r.inner.length ≤ r.cursor) :
    readChunk r = (none, ⟨r.inner, r.cursor + 1⟩) := by
  have h1 : r.read_u8 = (none, ⟨r.inner, r.cursor + 1⟩) := by
    simp only [SliceReader.read_u8]
    split
    · rfl
    · omega
  unfold readChunk
  rw [h1]

/-- Witness for the amended C5 at a concrete exhausted reader. -/
theorem c5_exhaustion_silent_witness :
    (⟨[5], 1⟩ : SliceReader).inner.length ≤ 1 ∧
    readChunk ⟨[5], 1⟩ = (none, ⟨[5], 2⟩) :=
  ⟨by decide, c5_exhaustion_silent ⟨[5], 1⟩ (by decide)⟩

/-- Claim C6 (counterexample): 100 identical pixels of value `(1,1,1,255)` do
not encode to two Run chunks of lengths 62 and 38: the first pixel differs
from the encoder's initial previous pixel and is emitted as a `Diff` chunk,
leaving Run chunks of lengths 62 and 37. -/
theorem c6_run_lengths_counterexample :
    (encodeChunks (Encoder.new (Header.rgba 100 1)) (List.replicate 100 ⟨1, 1, 1, 255⟩)).1
      = [Chunk.diff 1 1 1, Chunk.run 62, Chunk.run 37] ∧
    Chunk.run 38 ∉
      (encodeChunks (Encoder.new (Header.rgba 100 1)) (List.replicate 100 ⟨1, 1, 1, 255⟩)).1 := by
  constructor
  · decide
  · decide

theorem read_u8_snd (r : SliceReader) : (r.read_u8).2 = ⟨r.inner, r.cursor + 1⟩ := by
  simp only [SliceReader.read_u8]
  split
  · rfl
  · rfl

theorem read_n_snd (n : Nat) (r : SliceReader) :
    (SliceReader.read_n n r).2 = ⟨r.inner, r.cursor + n⟩ := by
  simp only [SliceReader.read_n]
  split
  · rfl
  · rfl

theorem cursor_of_read_u8 {r r1 : SliceReader} {o : Option Nat}
    (h : r.read_u8 = (o, r1)) : r1.cursor = r.cursor + 1 := by
  have h2 := read_u8_snd r
  rw [h] at h2
  have h3 : r1 = ⟨r.inner, r.cursor + 1⟩ := h2
  rw [h3]

theorem cursor_of_read_n {r r1 : SliceReader} {o : Option (List Nat)} {n : Nat}
    (h : SliceReader.read_n n r = (o, r1)) : r1.cursor = r.cursor + n := by
  have h2 := read_n_snd n r
  rw [h] at h2
  have h3 : r1 = ⟨r.inner, r.cursor + n⟩ := h2
  rw [h3]

theorem readChunk_cursor_le (r : SliceReader) : r.cursor ≤ (readChunk r).2.cursor := by
  unfold readChunk
  split
  next r1 heq =>
    have hc1 := cursor_of_read_u8 heq
    show r.cursor ≤ r1.cursor
    omega
  next tag r1 heq =>
    have hc1 := cursor_of_read_u8 heq
    split
    · split
      next r2 heq2 =>
        have hc2 := cursor_of_read_n heq2
        show r.cursor ≤ r2.cursor
        omega
      next bs r2 heq2 =>
        have hc2 := cursor_of_read_n heq2
        show r.cursor ≤ r2.cursor
        omega
    · split
      · split
        next r2 heq2 =>
          have hc2 := cursor_of_read_n heq2
          show r.cursor ≤ r2.cursor
          omega
        next bs r2 heq2 =>
          have hc2 := cursor_of_read_n heq2
          show r.cursor ≤ r2.cursor
          omega
      · split
        · show r.cursor ≤ r1.cursor
          omega
        · split
          · show r.cursor ≤ r1.cursor
            omega
          · split
            · show r.cursor ≤ r1.cursor
              omega
            · split
              · split
                next r2 heq2 =>
                  have hc2 := cursor_of_read_u8 heq2
                  show r.cursor ≤ r2.cursor
                  omega
                next b2 r2 heq2 =>
                  have hc2 := cursor_of_read_u8 heq2
                  show r.cursor ≤ r2.cursor
                  omega
              · show r.cursor ≤ r1.cursor
                omega

theorem read_u8_fst_none_iff (r : SliceReader) :
    (r.read_u8).1 = none ↔ r.inner.length < r.cursor + 1 := by
  simp only [SliceReader.read_u8]
  split
  next hc => simpa using hc
  next hc => simp; omega

theorem read_n_fst_none_iff (n : Nat) (r : SliceReader) :
    (SliceReader.read_n n r).1 = none ↔ r.inner.length < r.cursor + n := by
  simp only [SliceReader.read_n]
  split
  next hc => simpa using hc
  next hc => simp; omega

theorem peek_n_none_iff (n : Nat) (r : SliceReader) :
    SliceReader.peek_n n r = none ↔ r.inner.length < r.cursor + n := by
  simp only [SliceReader.peek_n]
  split
  next hc => simpa using hc
  next hc => simp; omega

/-- Claim C10: the cursor never decreases — `read_u8` and `read_n` advance it
by the requested amount even when they fail, a failed read leaves the cursor
beyond the end of the buffer, and from such a position every `read_u8`,
`read_n`, `peek_n`, and chunk-iteration call fails. -/
theorem c10_cursor_forward (r : SliceReader) (n : Nat) :
    (r.read_u8).2.cursor = r.cursor + 1 ∧
    (SliceReader.read_n n r).2.cursor = r.cursor + n ∧
    r.cursor ≤ (readChunk r).2.cursor ∧
    ((r.read_u8).1 = none → r.inner.length < (r.read_u8).2.cursor) ∧
    ((SliceReader.read_n n r).1 = none → r.inner.length < (SliceReader.read_n n r).2.cursor) ∧
    (r.inner.length < r.cursor →
      (r.read_u8).1 = none ∧ (SliceReader.read_n n r).1 = none ∧
        SliceReader.peek_n n r = none ∧ (readChunk r).1 = none) := by
  refine ⟨?_, ?_, readChunk_cursor_le r, ?_, ?_, ?_⟩
  · rw [read_u8_snd]
  · rw [read_n_snd]
  · intro h
    rw [read_u8_snd]
    exact (read_u8_fst_none_iff r).1 h
  · intro h
    rw [read_n_snd]
    exact (read_n_fst_none_iff n r).1 h
  · intro h
    have h8 : (r.read_u8).1 = none := (read_u8_fst_none_iff r).2 (by omega)
    refine ⟨h8, (read_n_fst_none_iff n r).2 (by omega), (peek_n_none_iff n r).2 (by omega), ?_⟩
    unfold readChunk
    rcases heq : r.read_u8 with ⟨o, r1⟩
    rw [heq] at h8
    have ho : o = none := h8
    subst ho
    rfl

/-- Witness for C10 at a concrete exhausted reader. -/
theorem c10_cursor_forward_witness :
    ((⟨[], 1⟩ : SliceReader).inner.length < 1) ∧
    ((⟨[], 1⟩ : SliceReader).read_u8.1 = none ∧ (SliceReader.read_n 3 ⟨[], 1⟩).1 = none ∧
      SliceReader.peek_n 3 ⟨[], 1⟩ = none ∧ (readChunk ⟨[], 1⟩).1 = none) :=
  ⟨by decide, (c10_cursor_forward ⟨[], 1⟩ 3).2.2.2.2.2 (by decide)⟩

theorem read_u8_ok (r : SliceReader) (h : r.cursor < r.inner.length) :
    r.read_u8 = (some (r.inner.getD r.cursor 0), ⟨r.inner, r.cursor + 1⟩) := by
  simp only [SliceReader.read_u8]
  rw [if_neg (by omega)]

/-- Claim C9: a 0x00 tag byte whose next 7 bytes are the terminator's trailing
bytes signals clean end-of-stream; a 0x00 tag byte not followed by them parses
as `Index{0}`; consequently a reader positioned exactly at the 8-byte
terminator produces no further chunk. -/
theorem c9_terminator_handling (r : SliceReader) :
    (∀ r1 : SliceReader, r.read_u8 = (some 0, r1) →
      (SliceReader.peek_n 7 r1 = some (BYTESTREAM_END.drop 1) → readChunk r = (none, r1)) ∧
      (SliceReader.peek_n 7 r1 ≠ some (BYTESTREAM_END.drop 1) →
        readChunk r = (some (Chunk.index 0), r1))) ∧
    (r.inner.drop r.cursor = BYTESTREAM_END → (readChunk r).1 = none) := by
  have hmain : ∀ r1 : SliceReader, r.read_u8 = (some 0, r1) →
      (SliceReader.peek_n 7 r1 = some (BYTESTREAM_END.drop 1) → readChunk r = (none, r1)) ∧
      (SliceReader.peek_n 7 r1 ≠ some (BYTESTREAM_END.drop 1) →
        readChunk r = (some (Chunk.index 0), r1)) := by
    intro r1 h8
    constructor
    · intro hp
      unfold readChunk
      simp only [h8]
      rw [if_neg (by decide), if_neg (by decide), if_pos ⟨trivial, hp⟩]
    · intro hp
      unfold readChunk
      simp only [h8]
      rw [if_neg (by decide), if_neg (by decide), if_neg (fun hc => hp hc.2),
        if_pos (show Nat.land 0 192 = 0 by decide)]
  refine ⟨hmain, ?_⟩
  intro hd
  have h0 := drop_cons_getD r.inner r.cursor 0 [0, 0, 0, 0, 0, 0, 1] hd
  have hlen : r.inner.length = r.cursor + 8 := by
    have hl := congrArg List.length hd
    rw [List.length_drop] at hl
    have hle : r.cursor ≤ r.inner.length := by
      by_contra hlt
      push_neg at hlt
      rw [List.drop_eq_nil_of_le (Nat.le_of_lt hlt)] at hd
      exact absurd hd (by decide)
    simp only [BYTESTREAM_END, List.length_cons, List.length_nil] at hl
    omega
  have h8 : r.read_u8 = (some 0, ⟨r.inner, r.cursor + 1⟩) := by
    rw [read_u8_ok r (by omega), h0.1]
  have hpeek : SliceReader.peek_n 7 ⟨r.inner, r.cursor + 1⟩ = some (BYTESTREAM_END.drop 1) := by
    simp only [SliceReader.peek_n]
    rw [if_neg (by simp; omega)]
    rw [show (⟨r.inner, r.cursor + 1⟩ : SliceReader).inner.drop
        (⟨r.inner, r.cursor + 1⟩ : SliceReader).cursor = [0, 0, 0, 0, 0, 0, 1] from h0.2]
    rfl
  rw [(hmain ⟨r.inner, r.cursor + 1⟩ h8).1 hpeek]

/-- Witness for C9: the reader positioned at the start of the bare terminator
buffer yields no chunk. -/
theorem c9_terminator_handling_witness :
    (⟨BYTESTREAM_END, 0⟩ : SliceReader).inner.drop 0 = BYTESTREAM_END ∧
    (readChunk ⟨BYTESTREAM_END, 0⟩).1 = none :=
  ⟨rfl, (c9_terminator_handling ⟨BYTESTREAM_END, 0⟩).2 rfl⟩

theorem decInv_set (c : List RgbaPixel) (px : RgbaPixel) (k : Nat) (hlen : c.length = 64) :
    DecInv ⟨c.set px.index_position px, px, k⟩ := by
  constructor
  · simp [List.length_set, hlen]
  · exact cacheGet_set_self _ _ _ (by rw [hlen]; exact index_position_lt px)

theorem decInv_init : DecInv DecState.init := by
  constructor
  · decide
  · decide

theorem decInv_step {σ : Type} (pull : σ → Option Chunk × σ) (d : DecState) (it : σ)
    (h : DecInv d) : DecInv (decoderNext pull d it).2.1 := by
  rcases hpul : pull it with ⟨o, it'⟩
  by_cases hrun : d.run > 0
  · simp only [decoderNext, if_pos hrun]
    exact h
  · simp only [decoderNext, if_neg hrun, hpul]
    cases o with
    | none => exact h
    | some c =>
      cases c with
      | rgb r g b => exact decInv_set _ _ _ h.1
      | rgba r g b a => exact decInv_set _ _ _ h.1
      | index idx => exact decInv_set _ _ _ h.1
      | luma dg dr_dg db_dg => exact decInv_set _ _ _ h.1
      | diff dr dg db => exact decInv_set _ _ _ h.1
      | run length => exact decInv_set _ _ _ h.1

/-- Claim C8: when the decoder serves a pixel from a pending run or consumes a
`Run` chunk, it emits the last-produced pixel, and the step changes neither the
64-slot cache (no slot differs before and after) nor the last-pixel state.  In
the `Run`-chunk case the source does execute the common cache write, but it
re-writes the slot `hash(previous)` with the value it already holds, which the
invariant `cacheGet cache (hash previous) = previous` of reachable states
(established by `decInv_init` and `decInv_step`) makes a no-op. -/
theorem c8_run_preserves_state {σ : Type} (pull : σ → Option Chunk × σ) (d : DecState) (it : σ)
    (h : 0 < d.run ∨ (d.run = 0 ∧ (∃ len it', pull it = (some (Chunk.run len), it')) ∧
        cacheGet d.previously_seen d.previous.index_position = d.previous)) :
    (decoderNext pull d it).1 = some d.previous ∧
    (decoderNext pull d it).2.1.previously_seen = d.previously_seen ∧
    (decoderNext pull d it).2.1.previous = d.previous := by
  rcases h with hrun | ⟨hrun, ⟨len, it', hpull⟩, hinv⟩
  · simp only [decoderNext, if_pos hrun]
    exact ⟨trivial, trivial, trivial⟩
  · simp only [decoderNext, if_neg (by omega : ¬ d.run > 0), hpull]
    exact ⟨trivial, set_eq_self_of_cacheGet _ _ _ hinv, trivial⟩

/-- Witness for C8: a fresh decoder consuming `Run{5}` emits the initial
previous pixel and leaves cache and previous pixel unchanged. -/
theorem c8_run_preserves_state_witness :
    (0 < DecState.init.run ∨ (DecState.init.run = 0 ∧
      (∃ len it', listPull [Chunk.run 5] = (some (Chunk.run len), it')) ∧
      cacheGet DecState.init.previously_seen DecState.init.previous.index_position
        = DecState.init.previous)) ∧
    ((decoderNext listPull DecState.init [Chunk.run 5]).1 = some ⟨0, 0, 0, 255⟩ ∧
      (decoderNext listPull DecState.init [Chunk.run 5]).2.1.previously_seen
        = DecState.init.previously_seen ∧
      (decoderNext listPull DecState.init [Chunk.run 5]).2.1.previous = ⟨0, 0, 0, 255⟩) :=
  ⟨Or.inr ⟨rfl, ⟨5, [], rfl⟩, by decide⟩,
   c8_run_preserves_state listPull DecState.init [Chunk.run 5]
     (Or.inr ⟨rfl, ⟨5, [], rfl⟩, by decide⟩)⟩

theorem run_le_of_step (e : Encoder) (p : RgbaPixel) (he : e.run ≤ 61) :
    (∀ l, Chunk.run l ∈ (e.process_pixel p).1 → l ≤ 62) ∧ (e.process_pixel p).2.run ≤ 61 := by
  have hm : (e.run + 1) % 256 = e.run + 1 := Nat.mod_eq_of_lt (by omega)
  simp only [Encoder.process_pixel]
  split
  · split
    · refine ⟨?_, Nat.zero_le _⟩
      intro l hl
      simp only [List.mem_singleton] at hl
      injection hl with h
      rw [hm] at h
      omega
    · next hcond =>
      rw [hm] at hcond
      refine ⟨?_, ?_⟩
      · intro l hl
        simp at hl
      · show (e.run + 1) % 256 ≤ 61
        rw [hm]
        omega
  · split
    · refine ⟨?_, Nat.zero_le _⟩
      intro l hl
      rw [List.mem_append] at hl
      rcases hl with hfl | hix
      · split at hfl
        · simp only [List.mem_singleton] at hfl
          injection hfl with h
          omega
        · simp at hfl
      · simp only [List.mem_singleton] at hix
        exact absurd hix (by simp)
    · refine ⟨?_, Nat.zero_le _⟩
      intro l hl
      rw [List.mem_append] at hl
      rcases hl with hfl | hdt
      · split at hfl
        · simp only [List.mem_singleton] at hfl
          injection hfl with h
          omega
        · simp at hfl
      · simp only [List.mem_singleton] at hdt
        split at hdt
        · split at hdt
          · simp at hdt
          · split at hdt
            · simp at hdt
            · simp at hdt
        · simp at hdt

theorem run_le_encodeChunks (e : Encoder) (ps : List RgbaPixel) (he : e.run ≤ 61) :
    ∀ l, Chunk.run l ∈ (encodeChunks e ps).1 → l ≤ 62 := by
  induction ps generalizing e with
  | nil =>
    intro l hl
    simp [encodeChunks] at hl
  | cons p ps ih =>
    intro l hl
    simp only [encodeChunks, List.mem_append] at hl
    rcases hl with h1 | h2
    · exact (run_le_of_step e p he).1 l h1
    · exact ih (e.process_pixel p).2 (run_le_of_step e p he).2 l h2

/-- Claim C6 (amended): 100 pixels all equal to the encoder's initial previous
pixel `{0,0,0,255}` encode to exactly two Run chunks of lengths 62 and 38, and
for every fresh encode session no emitted Run chunk has length greater
than 62. -/
theorem c6_run_cap_amended :
    (encodeChunks (Encoder.new (Header.rgba 100 1)) (List.replicate 100 ⟨0, 0, 0, 255⟩)).1
      = [Chunk.run 62, Chunk.run 38] ∧
    ∀ (hdr : Header) (ps : List RgbaPixel) (l : Nat),
      Chunk.run l ∈ (encodeChunks (Encoder.new hdr) ps).1 → l ≤ 62 := by
  constructor
  · decide
  · intro hdr ps l hl
    exact run_le_encodeChunks (Encoder.new hdr) ps (by simp [Encoder.new]) l hl

/-- Witness for the amended C6: the Run chunk of length 62 emitted for the
opaque-black image is indeed within the cap. -/
theorem c6_run_cap_amended_witness :
    Chunk.run 62 ∈
      (encodeChunks (Encoder.new (Header.rgba 100 1)) (List.replicate 100 ⟨0, 0, 0, 255⟩)).1 ∧
    62 ≤ 62 :=
  ⟨by decide,
   c6_run_cap_amended.2 (Header.rgba 100 1) (List.replicate 100 ⟨0, 0, 0, 255⟩) 62 (by decide)⟩

/-- Claim C2 (counterexample): in a fresh encode session, before anything has
been written into the cache, the very first pixel `{0,0,0,0}` already emits an
`Index{0}` chunk, because it matches the initial transparent-black cache
fill at slot 0. -/
theorem c2_fresh_index_counterexample :
    (Encoder.process_pixel (Encoder.new (Header.rgba 2 1)) ⟨0, 0, 0, 0⟩).1 = [Chunk.index 0] ∧
    (encodeTrace (Encoder.new (Header.rgba 2 1)) [] []).2.2 = [] ∧
    (⟨0, 0, 0, 0⟩ : RgbaPixel) ∉ ([] : List RgbaPixel) := by
  refine ⟨by decide, rfl, by decide⟩

theorem set_oob (l : List RgbaPixel) (n : Nat) (x : RgbaPixel) (h : l.length ≤ n) :
    l.set n x = l := by
  induction l generalizing n with
  | nil => rfl
  | cons a l ih =>
    cases n with
    | zero => simp at h
    | succ n =>
      simp only [List.set_cons_succ]
      rw [ih n (by simpa using h)]

theorem cacheGet_set_cases (l : List RgbaPixel) (n i : Nat) (x : RgbaPixel) :
    cacheGet (l.set n x) i = x ∨ cacheGet (l.set n x) i = cacheGet l i := by
  by_cases hi : i = n
  · subst hi
    by_cases hlt : i < l.length
    · exact Or.inl (cacheGet_set_self _ _ _ hlt)
    · right
      rw [set_oob _ _ _ (Nat.le_of_not_lt hlt)]
  · exact Or.inr (cacheGet_set_ne _ _ _ _ hi)

theorem encCacheInv_step (e : Encoder) (p : RgbaPixel) (w : List RgbaPixel)
    (h : EncCacheInv e w) :
    EncCacheInv (e.process_pixel p).2 (if stepWrites e p then w ++ [p] else w) := by
  by_cases hw : stepWrites e p
  · rw [if_pos hw]
    obtain ⟨hne, hmiss⟩ := hw
    have hseen : (e.process_pixel p).2.previously_seen
        = e.previously_seen.set p.index_position p := by
      simp only [Encoder.process_pixel]
      rw [if_neg hne, if_neg hmiss]
    intro i
    rw [hseen]
    rcases cacheGet_set_cases e.previously_seen p.index_position i p with hx | hold
    · rw [hx]
      exact Or.inr (List.mem_append_right _ (by simp))
    · rw [hold]
      rcases h i with h0 | hm
      · exact Or.inl h0
      · exact Or.inr (List.mem_append_left _ hm)
  · rw [if_neg hw]
    have hseen : (e.process_pixel p).2.previously_seen = e.previously_seen := by
      simp only [Encoder.process_pixel]
      by_cases hne : p = e.previous
      · rw [if_pos hne]
        split <;> rfl
      · have hmiss : cacheGet e.previously_seen p.index_position = p := by
          by_contra hc
          exact hw ⟨hne, hc⟩
        rw [if_neg hne, if_pos hmiss]
    intro i
    rw [hseen]
    exact h i

theorem encTrace_inv (e : Encoder) (w ps : List RgbaPixel) (h : EncCacheInv e w) :
    EncCacheInv (encodeTrace e w ps).2.1 (encodeTrace e w ps).2.2 := by
  induction ps generalizing e w with
  | nil => exact h
  | cons p ps ih => exact ih _ _ (encCacheInv_step e p w h)

theorem index_emitted_hit (e : Encoder) (p : RgbaPixel) (idx : Nat)
    (h : Chunk.index idx ∈ (e.process_pixel p).1) :
    cacheGet e.previously_seen p.index_position = p := by
  simp only [Encoder.process_pixel] at h
  by_cases hne : p = e.previous
  · rw [if_pos hne] at h
    split at h <;> simp at h
  · rw [if_neg hne] at h
    by_cases hhit : cacheGet e.previously_seen p.index_position = p
    · exact hhit
    · rw [if_neg hhit] at h
      exfalso
      rw [List.mem_append] at h
      rcases h with hfl | hdt
      · split at hfl <;> simp at hfl
      · simp only [List.mem_singleton] at hdt
        split at hdt
        · split at hdt
          · simp at hdt
          · split at hdt
            · simp at hdt
            · simp at hdt
        · simp at hdt

theorem cacheGet_replicate_zero (i : Nat) :
    cacheGet (List.replicate 64 ⟨0, 0, 0, 0⟩) i = ⟨0, 0, 0, 0⟩ := by
  by_cases hi : i < 64
  · unfold cacheGet
    rw [List.getD_eq_getElem _ _ (by simpa using hi)]
    exact List.getElem_replicate ..
  · exact cacheGet_oob _ _ (by simpa using Nat.le_of_not_lt hi)

/-- Claim C2 (amended): the decoder's cache starts with every slot `{0,0,0,255}`
and the encoder's with every slot `{0,0,0,0}`; in a fresh encode session every
`Index` chunk the encoder emits is for a pixel that was previously written into
its cache during that session or is the transparent-black pixel `{0,0,0,0}`
matching the initial fill. -/
theorem c2_cache_init_amended :
    ((Encoder.new (Header.rgba 1 1)).previously_seen = List.replicate 64 ⟨0, 0, 0, 0⟩ ∧
      DecState.init.previously_seen = List.replicate 64 ⟨0, 0, 0, 255⟩) ∧
    ∀ (hdr : Header) (ps : List RgbaPixel) (p : RgbaPixel) (idx : Nat),
      Chunk.index idx ∈ ((encodeTrace (Encoder.new hdr) [] ps).2.1.process_pixel p).1 →
      p = ⟨0, 0, 0, 0⟩ ∨ p ∈ (encodeTrace (Encoder.new hdr) [] ps).2.2 := by
  refine ⟨⟨rfl, rfl⟩, ?_⟩
  intro hdr ps p idx h
  have hhit := index_emitted_hit _ p idx h
  have hinv := encTrace_inv (Encoder.new hdr) [] ps (fun i => Or.inl (cacheGet_replicate_zero i))
  have hslot := hinv p.index_position
  rw [hhit] at hslot
  exact hslot

/-- Witness for the amended C2: a pixel seen, displaced by nothing, and seen
again yields an Index chunk, and that pixel is in the session's written set. -/
theorem c2_cache_init_amended_witness :
    Chunk.index 4 ∈
      ((encodeTrace (Encoder.new (Header.rgba 3 1)) []
          [⟨5, 0, 0, 255⟩, ⟨0, 5, 0, 255⟩]).2.1.process_pixel ⟨5, 0, 0, 255⟩).1 ∧
    ((⟨5, 0, 0, 255⟩ : RgbaPixel) = ⟨0, 0, 0, 0⟩ ∨
      (⟨5, 0, 0, 255⟩ : RgbaPixel) ∈
        (encodeTrace (Encoder.new (Header.rgba 3 1)) []
          [⟨5, 0, 0, 255⟩, ⟨0, 5, 0, 255⟩]).2.2) :=
  ⟨by decide,
   c2_cache_init_amended.2 (Header.rgba 3 1) [⟨5, 0, 0, 255⟩, ⟨0, 5, 0, 255⟩]
     ⟨5, 0, 0, 255⟩ 4 (by decide)⟩

/-- Modelled from the spec (§4.5 steps 6-7 and the tie-break rule): the data
chunk the specification says the encoder chooses for a pixel that is neither a
run continuation nor an index hit, with the spec's closed intervals.  Compared
against `Encoder.process_pixel` in claim C7. -/
def specDataChunk (prev p : RgbaPixel) : Chunk :=
  if p.a = prev.a then
    let dr := asI8 (u8wsub p.r prev.r)
    let dg := asI8 (u8wsub p.g prev.g)
    let db := asI8 (u8wsub p.b prev.b)
    let dr_dg := i8wsub dr dg
    let db_dg := i8wsub db dg
    if -2 ≤ dr ∧ dr ≤ 1 ∧ -2 ≤ dg ∧ dg ≤ 1 ∧ -2 ≤ db ∧ db ≤ 1 then
      Chunk.diff dr dg db
    else if -32 ≤ dg ∧ dg ≤ 31 ∧ -8 ≤ dr_dg ∧ dr_dg ≤ 7 ∧ -8 ≤ db_dg ∧ db_dg ≤ 7 then
      Chunk.luma dg dr_dg db_dg
    else Chunk.rgb p.r p.g p.b
  else Chunk.rgba p.r p.g p.b p.a

/-- Claim C7: for a pixel that differs from the previous pixel and is not an
index hit, the encoder emits (after any pending Run flush) exactly the chunk
the spec describes: Diff when dr,dg,db all lie in [-2,1], else Luma when dg in
[-32,31] and dr_dg,db_dg in [-8,7], else Rgb — all computed by wraparound
signed subtraction — and Rgba unconditionally when the alpha changed; the
Index check precedes these and Diff is preferred over Luma. -/
theorem c7_chunk_selection (e : Encoder) (p : RgbaPixel)
    (hne : p ≠ e.previous)
    (hmiss : cacheGet e.previously_seen p.index_position ≠ p) :
    (e.process_pixel p).1
      = (if 0 < e.run then [Chunk.run e.run] else []) ++ [specDataChunk e.previous p] := by
  simp only [Encoder.process_pixel, specDataChunk]
  rw [if_neg hne, if_neg hmiss]
  by_cases ha : p.a = e.previous.a
  · rw [if_pos ha, if_pos ha]
    split_ifs with h1 h2 h3 h4 <;>
      first
        | rfl
        | (exfalso
           simp only [in_diff_range, in_luma_range, Bool.and_eq_true,
             decide_eq_true_eq] at *
           omega)
  · rw [if_neg ha, if_neg ha]

/-- Witness for C7 at a concrete input: pixel (1,1,1,255) after a fresh start
is a Diff chunk. -/
theorem c7_chunk_selection_witness :
    ((⟨1, 1, 1, 255⟩ : RgbaPixel) ≠ (Encoder.new (Header.rgba 2 1)).previous ∧
      cacheGet (Encoder.new (Header.rgba 2 1)).previously_seen
        (⟨1, 1, 1, 255⟩ : RgbaPixel).index_position ≠ ⟨1, 1, 1, 255⟩) ∧
    (Encoder.process_pixel (Encoder.new (Header.rgba 2 1)) ⟨1, 1, 1, 255⟩).1
      = (if 0 < (Encoder.new (Header.rgba 2 1)).run
          then [Chunk.run (Encoder.new (Header.rgba 2 1)).run] else [])
        ++ [specDataChunk (Encoder.new (Header.rgba 2 1)).previous ⟨1, 1, 1, 255⟩] :=
  ⟨⟨by decide, by decide⟩,
   c7_chunk_selection (Encoder.new (Header.rgba 2 1)) ⟨1, 1, 1, 255⟩ (by decide) (by decide)⟩
